import Mathlib

/-!
Verification of the `preproc` include-preprocessor core.

The development shallowly embeds the Rust sources:
* `src/process.rs`   — the line parser (`CommentParser`) and per-source scan (`Source::process`);
* `src/deps.rs`      — the dependency-graph builder (`build_deptree` / `generate_deptree`);
* `src/lib.rs`       — the assembler (`build_file` / `subbuild_file`);
* `src/filefetcher.rs` — file-name resolution (`FilesystemFetcher::resolve_name`,
  `MemoryFetcher`), with the operating-system calls (`is_file`, `normalize`,
  `parent`, `read_to_string`) abstracted as an oracle structure `FileSys`.

Rust `String`s of file content and file names are modelled as `List Char`
(`Str`); Rust's `HashMap<String, FileData>` is modelled as an insertion-ordered
association list; recursive functions take an explicit fuel parameter, with
`none` meaning fuel exhaustion or a Rust panic (`unwrap` failure), and
`some (Except.error e)` a returned `Err(e)`.
-/

namespace Preproc

/-- A Rust string, modelled as its list of characters. -/
abbrev Str := List Char

/-- Rust `str::strip_prefix`: remove `p` from the front of `s` if it is a prefix. -/
def stripPre (p s : Str) : Option Str :=
  if p.isPrefixOf s then some (s.drop p.length) else none

/-- Rust `str::strip_suffix`: remove `p` from the end of `s` if it is a suffix. -/
def stripSuf (p s : Str) : Option Str :=
  if p.isSuffixOf s then some (s.take (s.length - p.length)) else none

/-- Rust `str::trim_start`: drop leading whitespace. -/
def trimStart (s : Str) : Str := s.dropWhile Char.isWhitespace

/-- Rust `str::trim`: drop leading and trailing whitespace. -/
def trim (s : Str) : Str := ((trimStart s).reverse.dropWhile Char.isWhitespace).reverse

/-- Rust `str::lines` strips one trailing `'\r'` from a line that ended in `"\r\n"`. -/
def stripCR (l : Str) : Str := if l.getLast? = some '\r' then l.dropLast else l

/-- Accumulator worker for `linesList`; `acc` holds the current line reversed. -/
def linesAux : List Char → List Char → List Str
  | [], acc => if acc.isEmpty then [] else [acc.reverse]
  | c :: rest, acc =>
    if c = '\n' then stripCR acc.reverse :: linesAux rest []
    else linesAux rest (c :: acc)

/-- Rust `str::lines`: split at `'\n'` (stripping a preceding `'\r'`); a final
line ending is optional and produces no empty trailing line. -/
def linesList (s : Str) : List Str := linesAux s []

/-- Rust `Vec<&str>::join("\n")` on the collected output lines. -/
def joinNL : List Str → Str
  | [] => []
  | [l] => l
  | l :: l' :: ls => l ++ '\n' :: joinNL (l' :: ls)

/-! ## process.rs: the line parser and the per-source scan -/

/-- Mirrors `process.rs`: `PreprocCommand`, a parsed preprocessing command. -/
inductive PreprocCommand where
  | Include (f : Str)
  | IncludeLocal (f : Str)
  deriving DecidableEq

instance : DecidableEq (Except String PreprocCommand) := fun a b =>
  match a, b with
  | Except.error x, Except.error y =>
    if h : x = y then isTrue (h ▸ rfl)
    else isFalse (fun hc => h (Except.error.inj hc))
  | Except.error _, Except.ok _ => isFalse (fun hc => Except.noConfusion hc)
  | Except.ok _, Except.error _ => isFalse (fun hc => Except.noConfusion hc)
  | Except.ok x, Except.ok y =>
    if h : x = y then isTrue (h ▸ rfl)
    else isFalse (fun hc => h (Except.ok.inj hc))

/-- The `ParseLine` trait: a line parser returns `none` for a non-directive
line, `some (Except.ok c)` for a parsed command and `some (Except.error m)`
for a malformed directive. -/
abbrev LineParser := Str → Option (Except String PreprocCommand)

/-- Mirrors `CommentParser::parse_line` from `process.rs`: after the comment
marker `cp` and a `&`, the trimmed remainder must be `include` followed by
`<name>` (global) or `"name"` (local). -/
def parseLineC (cp : Str) (line : Str) : Option (Except String PreprocCommand) :=
  match (stripPre cp line).bind (stripPre ['&']) with
  | none => none
  | some rem =>
    match stripPre "include".data (trimStart rem) with
    | some s =>
      let com := trim s
      match (stripPre ['<'] com).bind (stripSuf ['>']) with
      | some filename => some (Except.ok (PreprocCommand.Include filename))
      | none =>
        match (stripPre ['"'] com).bind (stripSuf ['"']) with
        | some filename => some (Except.ok (PreprocCommand.IncludeLocal filename))
        | none =>
          some (Except.error ("invalid include statement `" ++ String.mk rem ++ "`"))
    | none => some (Except.error ("invalid preproc statement `" ++ String.mk rem ++ "`"))

/-- Worker for `processSource`, mirroring the loop of `Source::process`:
`i` is the 0-based index of the first line of `ls`. -/
def processAux (parser : LineParser) : Nat → List Str → Except String (List (Nat × PreprocCommand))
  | _, [] => Except.ok []
  | i, l :: ls =>
    match parser l with
    | none => processAux parser (i + 1) ls
    | some (Except.error s) => Except.error ("line " ++ toString i ++ ": " ++ s)
    | some (Except.ok com) => (processAux parser (i + 1) ls).map (fun rest => (i, com) :: rest)

/-- Mirrors `Source::process` composed with `get_include_points`: scan the
lines in order, collecting `(line index, command)` pairs, aborting at the
first malformed directive. -/
def processSource (parser : LineParser) (lines : List Str) :
    Except String (List (Nat × PreprocCommand)) :=
  processAux parser 0 lines

/-! ## deps.rs: the dependency graph -/

/-- Mirrors `deps.rs` `InsertionPoint`: the line number of the insertion point
and the resolved filename of the source that should be included there. -/
structure InsertionPoint where
  index : Nat
  fname : Str
  deriving DecidableEq

/-- Mirrors `deps.rs` `FileData`: the source text of a file plus its
insertion points. -/
structure FileData where
  source : Str
  points : List InsertionPoint
  deriving DecidableEq

instance : Inhabited FileData := ⟨⟨[], []⟩⟩

/-- Mirrors `DepTree = HashMap<String, FileData>`. The hash map is modelled
as an insertion-ordered association list: `insert` on an existing key
replaces the value in place, a fresh key is appended. -/
abbrev DepTree := List (Str × FileData)

/-- Lookup in the dependency tree (`HashMap::get`). -/
def lookupT : DepTree → Str → Option FileData
  | [], _ => none
  | e :: es, k => if e.1 = k then some e.2 else lookupT es k

/-- Key-membership test (`HashMap::contains_key`). -/
def containsKey (t : DepTree) (k : Str) : Bool := (lookupT t k).isSome

/-- Insert or replace (`HashMap::insert`): an existing key keeps its
position, a new key is appended. -/
def insertT : DepTree → Str → FileData → DepTree
  | [], k, v => [(k, v)]
  | e :: es, k, v => if e.1 = k then (k, v) :: es else e :: insertT es k v

/-- The keys of the tree (`HashMap::keys`). -/
def keysT (t : DepTree) : List Str := t.map Prod.fst

/-! ## filefetcher.rs: file names and the fetcher interface -/

/-- Mirrors `filefetcher.rs` `FileName`: a global reference (searched across
include directories) or a reference local to a parent file. -/
inductive FileName where
  | Global (s : Str)
  | LocalTo (s : Str) (parent : Str)

/-- Mirrors the `Display` impl for `FileName`, used in error messages. -/
def fnameRepr : FileName → String
  | FileName.Global g => "<" ++ String.mk g ++ ">"
  | FileName.LocalTo l t => "\"" ++ String.mk l ++ "\" (local to " ++ String.mk t ++ ")"

/-- Mirrors `filefetcher.rs` `FetchedFile`: the resolved name and content. -/
structure FetchedFile where
  name : Str
  content : Str

/-- The `FileFetcher` trait: `fetch` returns a source together with the
resolved name, `resolve_name` only resolves. -/
structure Fetcher where
  fetch : FileName → Option FetchedFile
  resolve_name : FileName → Option Str

/-- A fetcher is coherent when the name returned by `fetch` is the one
`resolve_name` resolves to. Both Rust implementations satisfy this:
`FilesystemFetcher::fetch` literally calls `resolve_name`, and
`MemoryFetcher` returns the key it looked up in both capabilities. -/
def Fetcher.Coherent (f : Fetcher) : Prop :=
  ∀ n ff, f.fetch n = some ff → f.resolve_name n = some ff.name

/-! ## deps.rs: build_deptree / generate_deptree -/

/-- Convert an include point to the `FileName` to resolve, as in the `match`
at the top of the loop of `build_deptree`. -/
def toFileName (name : Str) : PreprocCommand → FileName
  | PreprocCommand.Include f => FileName.Global f
  | PreprocCommand.IncludeLocal f => FileName.LocalTo f name

/-- The loop body of `build_deptree` over the include points of one file:
resolve each target, skip targets already recorded for this file, recurse
into targets not yet in the tree, then push the insertion point. -/
def buildLoop (fetcher : Fetcher)
    (recurse : FileName → DepTree → Option (Except String DepTree)) :
    List (Nat × PreprocCommand) → Str → List InsertionPoint → DepTree →
    Option (Except String (DepTree × List InsertionPoint))
  | [], _, pts, tree => some (Except.ok (tree, pts))
  | (i, com) :: rest, name, pts, tree =>
    let subname := toFileName name com
    match fetcher.resolve_name subname with
    | none => some (Except.error ("file not found " ++ fnameRepr subname))
    | some rname =>
      if pts.all (fun p => p.fname ≠ rname) then
        if containsKey tree rname then
          buildLoop fetcher recurse rest name (pts ++ [⟨i, rname⟩]) tree
        else
          match recurse subname tree with
          | none => none
          | some (Except.error e) => some (Except.error e)
          | some (Except.ok tree2) => buildLoop fetcher recurse rest name (pts ++ [⟨i, rname⟩]) tree2
      else
        buildLoop fetcher recurse rest name pts tree

/-- Mirrors `build_deptree` from `deps.rs`: fetch the file, insert a
placeholder record for its resolved name, scan its lines for include
points, process them via `buildLoop`, then replace the placeholder with
the finalized record. `none` means the fuel ran out. -/
def buildDeptree (fetcher : Fetcher) (parser : LineParser) :
    Nat → FileName → DepTree → Option (Except String DepTree)
  | 0, _, _ => none
  | fuel + 1, fname, tree =>
    match fetcher.fetch fname with
    | none => some (Except.error ("file not found " ++ fnameRepr fname))
    | some ff =>
      let tree1 := insertT tree ff.name ⟨[], []⟩
      match processSource parser (linesList ff.content) with
      | Except.error e => some (Except.error e)
      | Except.ok ipoints =>
        match buildLoop fetcher (fun fn t => buildDeptree fetcher parser fuel fn t)
            ipoints ff.name [] tree1 with
        | none => none
        | some (Except.error e) => some (Except.error e)
        | some (Except.ok (tree2, pts)) =>
          some (Except.ok (insertT tree2 ff.name ⟨ff.content, pts⟩))

/-- Mirrors `generate_deptree` from `deps.rs`: the seed is wrapped as
`FileName::LocalTo(seed, "./")`, resolved, and the tree is built from it. -/
def generateDeptree (fetcher : Fetcher) (parser : LineParser) (fuel : Nat) (seed : Str) :
    Option (Except String (Str × DepTree)) :=
  let start := FileName.LocalTo seed "./".data
  match fetcher.resolve_name start with
  | none => some (Except.error ("file not found " ++ fnameRepr start))
  | some fname =>
    match buildDeptree fetcher parser fuel start [] with
    | none => none
    | some (Except.error e) => some (Except.error e)
    | some (Except.ok tree) => some (Except.ok (fname, tree))

/-! ## lib.rs: build_file / subbuild_file -/

/-- The inner `loop` of `subbuild_file`: advance the enumerated line
iterator, pushing lines, until the line with index `idx` is reached (that
directive line is dropped); `none` models the `lines.next().unwrap()`
panic when the iterator is exhausted. -/
def consumeTo (idx : Nat) : List (Nat × Str) → List Str → Option (List Str × List (Nat × Str))
  | [], _ => none
  | (i, l) :: rest, pushed =>
    if i = idx then some (pushed, rest) else consumeTo idx rest (pushed ++ [l])

/-- The `for`-loop of `subbuild_file` over the insertion points of a file:
splice each target in at its recorded line, then append the remaining
lines. -/
def subPoints (recurse : Str → List Str → List Str → Option (List Str × List Str)) :
    List InsertionPoint → List (Nat × Str) → List Str → List Str →
    Option (List Str × List Str)
  | [], lines, acc, visited => some (acc ++ lines.map Prod.snd, visited)
  | p :: ps, lines, acc, visited =>
    match consumeTo p.index lines [] with
    | none => none
    | some (pushed, rem) =>
      if p.fname ∈ visited then subPoints recurse ps rem (acc ++ pushed) visited
      else
        match recurse p.fname (acc ++ pushed) visited with
        | none => none
        | some (acc2, visited2) => subPoints recurse ps rem acc2 visited2

/-- Mirrors `subbuild_file` from `lib.rs`: look the file up (`unwrap`),
mark it visited, then walk its insertion points. `none` models a panic or
fuel exhaustion. -/
def subbuildFile (deps : DepTree) : Nat → Str → List Str → List Str → Option (List Str × List Str)
  | 0, _, _, _ => none
  | fuel + 1, fname, acc, visited =>
    match lookupT deps fname with
    | none => none
    | some fd =>
      subPoints (fun f a v => subbuildFile deps fuel f a v)
        fd.points (linesList fd.source).enum acc (fname :: visited)

/-- All identities mentioned as the target of some insertion point anywhere
in the tree (the `mentioned` set of `build_file`). -/
def mentionedT (deps : DepTree) : List Str :=
  deps.flatMap (fun e => e.2.points.map (fun p => p.fname))

/-- Root selection of `build_file`: keys not mentioned as any insertion
target; if every key is mentioned, `dependencies.keys().take(1)` yields a
single key. In Rust that key comes from a `HashMap` with randomized
iteration order, so it is an arbitrary key of the graph; this model
determinizes it to the first key of the association list. Conclusions
that depend on which key the fallback picks must not be read off this
determinization — they are stated against the root-parametric
`buildFileRooted` instead. -/
def rootsOf (deps : DepTree) : List Str :=
  if ((keysT deps).filter (fun k => decide (k ∉ mentionedT deps))).isEmpty
  then (keysT deps).take 1
  else (keysT deps).filter (fun k => decide (k ∉ mentionedT deps))

/-- The `for root in roots` loop of `build_file`, threading the shared
accumulator and visited set. -/
def rootsFold (deps : DepTree) : List Str → List Str → List Str → Option (List Str × List Str)
  | [], acc, visited => some (acc, visited)
  | r :: rs, acc, visited =>
    match subbuildFile deps (deps.length + 1) r acc visited with
    | none => none
    | some (acc2, v2) => rootsFold deps rs acc2 v2

/-- Mirrors `build_file` from `lib.rs`: error on an empty tree, otherwise
emit every root into a shared accumulator and join with `"\n"`. -/
def buildFile (deps : DepTree) : Option (Except String Str) :=
  if deps.isEmpty then some (Except.error "empty dependency tree")
  else
    match rootsFold deps (rootsOf deps) [] [] with
    | none => none
    | some (acc, _) => some (Except.ok (joinNL acc))

/-- `build_file` in its pure-cycle fallback, with the arbitrary single
root made explicit: when every key is referenced, Rust's
`dependencies.keys().take(1)` returns one key `r` of a
randomized-iteration `HashMap`, and the rest of `build_file` then runs
the root loop on `[r]`. This function takes that choice `r` as a
parameter, so theorems about the fallback quantify over (or pick) the
root instead of inheriting the model's association-list order. -/
def buildFileRooted (deps : DepTree) (r : Str) : Option (Except String Str) :=
  if deps.isEmpty then some (Except.error "empty dependency tree")
  else
    match rootsFold deps [r] [] [] with
    | none => none
    | some (acc, _) => some (Except.ok (joinNL acc))

/-! ## Concrete fetchers for the test scenarios -/

/-- Association lookup in a list of (name, content) pairs. -/
def tableLookup : List (Str × Str) → Str → Option Str
  | [], _ => none
  | e :: es, k => if e.1 = k then some e.2 else tableLookup es k

/-- Mirrors `MemoryFetcher` from `filefetcher.rs`, restricted to the
`Global` branch (the `LocalTo` branch of the Rust code is `todo!()` and
is never reached in the scenarios below). -/
def memFetcher (table : List (Str × Str)) : Fetcher where
  fetch := fun n =>
    match n with
    | FileName.Global g => (tableLookup table g).map (fun c => ⟨g, c⟩)
    | FileName.LocalTo _ _ => none
  resolve_name := fun n =>
    match n with
    | FileName.Global g => if (tableLookup table g).isSome then some g else none
    | FileName.LocalTo _ _ => none

/-- The comment parser for marker `//`, as in the repository's tests. -/
def cparser : LineParser := parseLineC "//".data

/-- The cyclic three-file scenario of the spec and of the
`assemble_abc` test in `lib.rs`. -/
def abcTable : List (Str × Str) :=
  [("a.txt".data, "File a.txt begin\n//&include <b.txt>\nFile a.txt end".data),
   ("b.txt".data, "File b.txt begin\n//&include <c.txt>\nFile b.txt end".data),
   ("c.txt".data, "File c.txt begin\n//&include <a.txt>\nFile c.txt end".data)]

/-- The fetcher over `abcTable`. -/
def abcFetcher : Fetcher := memFetcher abcTable

theorem tableLookup_isSome_mem (t : List (Str × Str)) (k : Str)
    (h : (tableLookup t k).isSome) : k ∈ t.map Prod.fst := by
  induction t with
  | nil => simp [tableLookup] at h
  | cons e es ih =>
    by_cases he : e.1 = k
    · simp [he.symm]
    · simp only [tableLookup, he, if_false] at h
      simp [ih h]

theorem memFetcher_coherent (t : List (Str × Str)) : (memFetcher t).Coherent := by
  intro n ff h
  cases n with
  | Global g =>
    simp only [memFetcher] at h ⊢
    rcases Option.map_eq_some'.mp h with ⟨c, hl, hfc⟩
    rw [hl]
    simp [← hfc]
  | LocalTo a b => simp [memFetcher] at h

theorem memFetcher_resolve_mem (t : List (Str × Str)) :
    ∀ n r, (memFetcher t).resolve_name n = some r → r ∈ t.map Prod.fst := by
  intro n r h
  cases n with
  | Global g =>
    simp only [memFetcher] at h
    by_cases hs : (tableLookup t g).isSome
    · rw [if_pos hs] at h
      have hrg : g = r := by simpa using h
      rw [← hrg]
      exact tableLookup_isSome_mem t g hs
    · rw [if_neg hs] at h
      simp at h
  | LocalTo a b => simp [memFetcher] at h

/-! ## filefetcher.rs: FilesystemFetcher

The operating-system and path-library calls made by
`FilesystemFetcher::resolve_name` are abstracted as an oracle: `isFile` is
`Path::is_file`, `normalize` is `normpath`'s `normalize` (which succeeds
exactly when the path exists), `parent` is `BasePath::parent` with its
`Result<Option<_>>` flattened, and `read` is `fs::read_to_string` on an
already-resolved (hence existing) path. The control flow around these
calls is translated faithfully. -/

/-- The oracle for operating-system path queries. -/
structure FileSys where
  isFile : Str → Bool
  normalize : Str → Option Str
  parent : Str → Option Str
  read : Str → Str

/-- Unix `Path::is_absolute`: the path starts with `/`. -/
def isAbsolutePath (p : Str) : Bool := p.headI = '/'

/-- `Path::starts_with("./")`: the path is explicitly relative to the
current directory. -/
def startsDotSlash (p : Str) : Bool := "./".data.isPrefixOf p

/-- `BasePath::join`: an absolute right side replaces the base, otherwise
the two are joined with a separator. -/
def pathJoin (base p : Str) : Str :=
  if isAbsolutePath p then p
  else base ++ (if base.getLast? = some '/' then [] else ['/']) ++ p

/-- Mirrors `FilesystemFetcher`: the ordered include directories (the
default `"./"` is always searched last). -/
structure FsSearch where
  search_order : List Str

/-- The search loop in the `Global` flat-name branch of `resolve_name`:
return the first search directory under which the joined path normalizes. -/
def firstNorm (fs : FileSys) : List Str → Str → Option Str
  | [], _ => none
  | sp :: rest, name =>
    match fs.normalize (pathJoin sp name) with
    | some cp => some cp
    | none => firstNorm fs rest name

/-- Mirrors `FilesystemFetcher::resolve_name` from `filefetcher.rs`:
absolute global paths resolve by existence, `./`-prefixed ones normalize
against the working directory, flat ones search the include directories;
a `LocalTo` name joins against the parent directory of its parent file
only, never the search directories. -/
def fsResolveName (fs : FileSys) (f : FsSearch) : FileName → Option Str
  | FileName.Global name =>
    if isAbsolutePath name then
      if fs.isFile name then some name else none
    else if startsDotSlash name then
      fs.normalize name
    else
      firstNorm fs (f.search_order ++ ["./".data]) name
  | FileName.LocalTo name loc =>
    match (if fs.isFile loc then fs.parent loc else some loc) with
    | none => none
    | some localParent => fs.normalize (pathJoin localParent name)

/-- Mirrors the `FileFetcher` impl for `FilesystemFetcher`: `fetch`
resolves the name and reads the file. -/
def fsFetcher (fs : FileSys) (f : FsSearch) : Fetcher where
  fetch := fun n => (fsResolveName fs f n).map (fun r => ⟨r, fs.read r⟩)
  resolve_name := fsResolveName fs f

/-- A filesystem for the seed-resolution scenario: the single file
`inc/x.txt` exists; nothing exists in the working directory. -/
def c10fs : FileSys where
  isFile := fun _ => false
  normalize := fun p => if p = "inc/x.txt".data then some "inc/x.txt".data else none
  parent := fun _ => none
  read := fun _ => []

/-! ## Helper lemmas on the association-list map -/

theorem keysT_insertT (t : DepTree) (k : Str) (v : FileData) :
    keysT (insertT t k v) = if k ∈ keysT t then keysT t else keysT t ++ [k] := by
  induction t with
  | nil => simp [insertT, keysT]
  | cons e es ih =>
    by_cases h : e.1 = k
    · subst h
      simp [insertT, keysT]
    · have h' : ¬ k = e.1 := fun hk => h hk.symm
      have hstep : insertT (e :: es) k v = e :: insertT es k v := by
        simp [insertT, h]
      rw [hstep]
      simp only [keysT, List.map_cons] at ih ⊢
      rw [ih]
      by_cases hk : k ∈ List.map Prod.fst es <;> simp [hk, h']

theorem mem_keysT_insertT_self (t : DepTree) (k : Str) (v : FileData) :
    k ∈ keysT (insertT t k v) := by
  rw [keysT_insertT]
  by_cases h : k ∈ keysT t <;> simp [h]

theorem mem_keysT_insertT_of_mem (t : DepTree) (k : Str) (v : FileData)
    (j : Str) (hj : j ∈ keysT t) : j ∈ keysT (insertT t k v) := by
  rw [keysT_insertT]
  by_cases h : k ∈ keysT t <;> simp [h, hj]

theorem keysT_insertT_of_not_mem (t : DepTree) (k : Str) (v : FileData)
    (h : k ∉ keysT t) : keysT (insertT t k v) = keysT t ++ [k] := by
  rw [keysT_insertT]; simp [h]

theorem nodup_keysT_insertT (t : DepTree) (k : Str) (v : FileData)
    (h : (keysT t).Nodup) : (keysT (insertT t k v)).Nodup := by
  rw [keysT_insertT]
  by_cases hk : k ∈ keysT t
  · simpa [hk]
  · simp [hk, List.nodup_append, h]

theorem mem_insertT (t : DepTree) (k : Str) (v : FileData) (e : Str × FileData)
    (he : e ∈ insertT t k v) : e ∈ t ∨ e = (k, v) := by
  induction t with
  | nil => simp [insertT] at he; simp [he]
  | cons f fs ih =>
    by_cases h : f.1 = k
    · simp [insertT, h] at he
      rcases he with he | he
      · right; simp [he]
      · left; simp [he]
    · simp [insertT, h] at he
      rcases he with he | he
      · left; simp [he]
      · rcases ih he with h1 | h1
        · left; simp [h1]
        · right; exact h1

theorem lookupT_eq_some_mem (t : DepTree) (k : Str) (v : FileData)
    (h : lookupT t k = some v) : (k, v) ∈ t := by
  induction t with
  | nil => simp [lookupT] at h
  | cons e es ih =>
    by_cases he : e.1 = k
    · simp [lookupT, he] at h
      subst he; subst h
      simp
    · simp [lookupT, he] at h
      simp [ih h]

theorem containsKey_iff_mem (t : DepTree) (k : Str) :
    containsKey t k = true ↔ k ∈ keysT t := by
  induction t with
  | nil => simp [containsKey, lookupT, keysT]
  | cons e es ih =>
    by_cases he : e.1 = k
    · simp [containsKey, lookupT, keysT, he]
    · have h' : ¬ k = e.1 := fun hk => he hk.symm
      simp only [containsKey, lookupT, keysT] at ih ⊢
      simp [he, h', ih]

theorem mem_keysT_lookup (t : DepTree) (k : Str) (h : k ∈ keysT t) :
    ∃ v, lookupT t k = some v := by
  induction t with
  | nil => simp [keysT] at h
  | cons e es ih =>
    by_cases he : e.1 = k
    · exact ⟨e.2, by simp [lookupT, he]⟩
    · have h' : ¬ k = e.1 := fun hk => he hk.symm
      have h2 : k ∈ keysT es := by
        simp only [keysT, List.map_cons, List.mem_cons] at h
        rcases h with h | h
        · exact absurd h h'
        · exact h
      rcases ih h2 with ⟨v, hv⟩
      exact ⟨v, by simp [lookupT, he, hv]⟩

theorem mem_mentionedT (t : DepTree) (e : Str × FileData) (p : InsertionPoint)
    (he : e ∈ t) (hp : p ∈ e.2.points) : p.fname ∈ mentionedT t := by
  simp only [mentionedT, List.mem_flatMap]
  exact ⟨e, he, List.mem_map.mpr ⟨p, hp, rfl⟩⟩

/-! ## Helper lemmas on the fuel measure -/

/-- The number of identities in `ids` not yet in `v`. -/
def missing (ids v : List Str) : Nat :=
  (ids.filter (fun n => decide (n ∉ v))).length

theorem missing_anti (ids v v' : List Str) (hsub : ∀ x ∈ v, x ∈ v') :
    missing ids v' ≤ missing ids v := by
  induction ids with
  | nil => simp [missing]
  | cons n ns ih =>
    simp only [missing, List.filter_cons] at ih ⊢
    by_cases h' : n ∈ v'
    · have h2 : decide (n ∉ v') = false := by simp [h']
      by_cases h : n ∈ v
      · have h3 : decide (n ∉ v) = false := by simp [h]
        simpa [h2, h3] using ih
      · have h3 : decide (n ∉ v) = true := by simp [h]
        simp only [h2, h3, if_true, if_false, List.length_cons]
        exact Nat.le_trans ih (Nat.le_succ _)
    · have h : n ∉ v := fun hn => h' (hsub n hn)
      have h2 : decide (n ∉ v') = true := by simp [h']
      have h3 : decide (n ∉ v) = true := by simp [h]
      simp only [h2, h3, if_true, List.length_cons]
      exact Nat.succ_le_succ ih

theorem missing_lt (ids v v' : List Str) (a : Str) (ha : a ∈ ids)
    (hav : a ∉ v) (hav' : a ∈ v') (hsub : ∀ x ∈ v, x ∈ v') :
    missing ids v' < missing ids v := by
  induction ids with
  | nil => simp at ha
  | cons n ns ih =>
    simp only [missing, List.filter_cons] at ih ⊢
    by_cases hn : n = a
    · subst hn
      have h2 : decide (n ∉ v') = false := by simp [hav']
      have h3 : decide (n ∉ v) = true := by simp [hav]
      simp only [h2, h3, if_true, if_false, List.length_cons]
      exact Nat.lt_succ_of_le (missing_anti ns v v' hsub)
    · have ha' : a ∈ ns := by
        rcases List.mem_cons.mp ha with h | h
        · exact absurd h.symm hn
        · exact h
      by_cases h' : n ∈ v'
      · have h2 : decide (n ∉ v') = false := by simp [h']
        by_cases h : n ∈ v
        · have h3 : decide (n ∉ v) = false := by simp [h]
          simpa [h2, h3] using ih ha'
        · have h3 : decide (n ∉ v) = true := by simp [h]
          simp only [h2, h3, if_true, if_false, List.length_cons]
          exact Nat.lt_succ_of_le (Nat.le_of_lt (ih ha'))
      · have h : n ∉ v := fun hn2 => h' (hsub n hn2)
        have h2 : decide (n ∉ v') = true := by simp [h']
        have h3 : decide (n ∉ v) = true := by simp [h]
        simp only [h2, h3, if_true, List.length_cons]
        exact Nat.succ_lt_succ (ih ha')

theorem missing_le_length (ids v : List Str) : missing ids v ≤ ids.length :=
  List.length_filter_le _ _

/-! ## Inversion of the builder -/

theorem buildLoop_nil_inv (fetcher : Fetcher)
    (recurse : FileName → DepTree → Option (Except String DepTree))
    (name : Str) (pts : List InsertionPoint) (tree tree2 : DepTree)
    (pts2 : List InsertionPoint)
    (hb : buildLoop fetcher recurse [] name pts tree = some (Except.ok (tree2, pts2))) :
    tree2 = tree ∧ pts2 = pts := by
  simp only [buildLoop, Option.some.injEq, Except.ok.injEq, Prod.mk.injEq] at hb
  exact ⟨hb.1.symm, hb.2.symm⟩

theorem buildLoop_cons_inv (fetcher : Fetcher)
    (recurse : FileName → DepTree → Option (Except String DepTree))
    (i : Nat) (com : PreprocCommand) (rest : List (Nat × PreprocCommand))
    (name : Str) (pts : List InsertionPoint) (tree tree2 : DepTree)
    (pts2 : List InsertionPoint)
    (hb : buildLoop fetcher recurse ((i, com) :: rest) name pts tree
      = some (Except.ok (tree2, pts2))) :
    ∃ rname, fetcher.resolve_name (toFileName name com) = some rname ∧
      ((¬ (∀ p ∈ pts, p.fname ≠ rname) ∧
        buildLoop fetcher recurse rest name pts tree = some (Except.ok (tree2, pts2))) ∨
       ((∀ p ∈ pts, p.fname ≠ rname) ∧ rname ∈ keysT tree ∧
        buildLoop fetcher recurse rest name (pts ++ [⟨i, rname⟩]) tree
          = some (Except.ok (tree2, pts2))) ∨
       ((∀ p ∈ pts, p.fname ≠ rname) ∧ rname ∉ keysT tree ∧
        ∃ tmid, recurse (toFileName name com) tree = some (Except.ok tmid) ∧
          buildLoop fetcher recurse rest name (pts ++ [⟨i, rname⟩]) tmid
            = some (Except.ok (tree2, pts2)))) := by
  simp only [buildLoop] at hb
  split at hb
  · exact absurd hb (by simp)
  next rname heq =>
    refine ⟨rname, heq, ?_⟩
    split at hb
    next hall =>
      have hall' : ∀ p ∈ pts, p.fname ≠ rname := by
        intro p hp
        have := List.all_eq_true.mp hall p hp
        simpa using this
      split at hb
      next hck =>
        exact Or.inr (Or.inl ⟨hall', (containsKey_iff_mem tree rname).mp hck, hb⟩)
      next hck =>
        have hnk : rname ∉ keysT tree := fun hm =>
          hck ((containsKey_iff_mem tree rname).mpr hm)
        split at hb
        · exact absurd hb (by simp)
        · exact absurd hb (by simp)
        next tmid hr =>
          exact Or.inr (Or.inr ⟨hall', hnk, tmid, hr, hb⟩)
    next hall =>
      have hall' : ¬ (∀ p ∈ pts, p.fname ≠ rname) := by
        intro hc
        apply hall
        rw [List.all_eq_true]
        intro p hp
        simpa using hc p hp
      exact Or.inl ⟨hall', hb⟩

theorem buildDeptree_ok_inv (fetcher : Fetcher) (parser : LineParser)
    (fuel : Nat) (fname : FileName) (tree tree' : DepTree)
    (hb : buildDeptree fetcher parser (fuel + 1) fname tree = some (Except.ok tree')) :
    ∃ ff ipoints tree2 pts,
      fetcher.fetch fname = some ff ∧
      processSource parser (linesList ff.content) = Except.ok ipoints ∧
      buildLoop fetcher (fun fn t => buildDeptree fetcher parser fuel fn t)
        ipoints ff.name [] (insertT tree ff.name ⟨[], []⟩)
        = some (Except.ok (tree2, pts)) ∧
      tree' = insertT tree2 ff.name ⟨ff.content, pts⟩ := by
  simp only [buildDeptree] at hb
  split at hb
  · exact absurd hb (by simp)
  next ff heq =>
    split at hb
    · exact absurd hb (by simp)
    next ipoints hps =>
      split at hb
      · exact absurd hb (by simp)
      · exact absurd hb (by simp)
      next tree2 pts hbl =>
        refine ⟨ff, ipoints, tree2, pts, heq, hps, hbl, ?_⟩
        simpa using hb.symm

/-! ## Key monotonicity of the builder -/

theorem buildLoop_keys_mono (fetcher : Fetcher)
    (recurse : FileName → DepTree → Option (Except String DepTree))
    (hrec : ∀ fn t t', recurse fn t = some (Except.ok t') → ∀ k ∈ keysT t, k ∈ keysT t') :
    ∀ (rest : List (Nat × PreprocCommand)) (name : Str) (pts : List InsertionPoint)
      (tree tree2 : DepTree) (pts2 : List InsertionPoint),
      buildLoop fetcher recurse rest name pts tree = some (Except.ok (tree2, pts2)) →
      ∀ k ∈ keysT tree, k ∈ keysT tree2 := by
  intro rest
  induction rest with
  | nil =>
    intro name pts tree tree2 pts2 hb k hk
    rw [(buildLoop_nil_inv fetcher recurse name pts tree tree2 pts2 hb).1]
    exact hk
  | cons ip rest ih =>
    intro name pts tree tree2 pts2 hb k hk
    obtain ⟨i, com⟩ := ip
    rcases buildLoop_cons_inv fetcher recurse i com rest name pts tree tree2 pts2 hb with
      ⟨rname, _, hcase⟩
    rcases hcase with ⟨_, hb'⟩ | ⟨_, _, hb'⟩ | ⟨_, _, tmid, hr, hb'⟩
    · exact ih name pts tree tree2 pts2 hb' k hk
    · exact ih name _ tree tree2 pts2 hb' k hk
    · exact ih name _ tmid tree2 pts2 hb' k (hrec _ _ _ hr k hk)

theorem buildDeptree_keys_mono (fetcher : Fetcher) (parser : LineParser) :
    ∀ (fuel : Nat) (fname : FileName) (tree tree' : DepTree),
      buildDeptree fetcher parser fuel fname tree = some (Except.ok tree') →
      ∀ k ∈ keysT tree, k ∈ keysT tree' := by
  intro fuel
  induction fuel with
  | zero => intro fname tree tree' hb; exact absurd hb (by simp [buildDeptree])
  | succ fuel ih =>
    intro fname tree tree' hb k hk
    rcases buildDeptree_ok_inv fetcher parser fuel fname tree tree' hb with
      ⟨ff, ipoints, tree2, pts, _, _, hbl, hout⟩
    rw [hout]
    apply mem_keysT_insertT_of_mem
    exact buildLoop_keys_mono fetcher _ (fun fn t t' h => ih fn t t' h)
      ipoints ff.name [] _ tree2 pts hbl k
      (mem_keysT_insertT_of_mem tree ff.name ⟨[], []⟩ k hk)

/-! ## Well-formedness invariants of the graph -/

/-- The record-local builder invariants of one file's data relative to a
tree: every insertion target is a key of the tree, the recorded line
indices strictly increase in scan order, and each index is below the
file's line count. -/
def recordWF (t : DepTree) (fd : FileData) : Prop :=
  (∀ p ∈ fd.points, p.fname ∈ keysT t) ∧
  List.Pairwise (fun a b => a < b) (fd.points.map InsertionPoint.index) ∧
  (∀ p ∈ fd.points, p.index < (linesList fd.source).length)

/-- The assembler's precondition: unique keys and record-local invariants
for every entry. -/
def treeWF (t : DepTree) : Prop :=
  (keysT t).Nodup ∧ ∀ e ∈ t, recordWF t e.2

/-- The full builder invariant: `treeWF` plus per-file deduplication of
insertion targets. -/
def treeOK (t : DepTree) : Prop :=
  treeWF t ∧ ∀ e ∈ t, (e.2.points.map InsertionPoint.fname).Nodup

theorem recordWF_mono (t t' : DepTree) (fd : FileData)
    (hsub : ∀ k ∈ keysT t, k ∈ keysT t') (h : recordWF t fd) : recordWF t' fd :=
  ⟨fun p hp => hsub _ (h.1 p hp), h.2.1, h.2.2⟩

theorem treeOK_insertT (t : DepTree) (k : Str) (v : FileData)
    (ht : treeOK t) (hv : recordWF (insertT t k v) v)
    (hvd : (v.points.map InsertionPoint.fname).Nodup) : treeOK (insertT t k v) := by
  refine ⟨⟨nodup_keysT_insertT t k v ht.1.1, ?_⟩, ?_⟩
  · intro e he
    rcases mem_insertT t k v e he with hmem | heq
    · exact recordWF_mono t _ e.2 (mem_keysT_insertT_of_mem t k v) (ht.1.2 e hmem)
    · rw [heq]
      exact hv
  · intro e he
    rcases mem_insertT t k v e he with hmem | heq
    · exact ht.2 e hmem
    · rw [heq]
      exact hvd

theorem treeOK_nil : treeOK [] := by
  refine ⟨⟨?_, ?_⟩, ?_⟩ <;> simp [keysT]

/-- Bounds and monotonicity of the include points produced by one scan:
indices lie in `[i, i + length)` and strictly increase. -/
theorem processAux_ok_bounds (parser : LineParser) :
    ∀ (ls : List Str) (i : Nat) (res : List (Nat × PreprocCommand)),
      processAux parser i ls = Except.ok res →
      (∀ ip ∈ res, i ≤ ip.1 ∧ ip.1 < i + ls.length) ∧
      List.Pairwise (fun a b => a < b) (res.map Prod.fst) := by
  intro ls
  induction ls with
  | nil =>
    intro i res h
    simp only [processAux, Except.ok.injEq] at h
    rw [← h]
    simp
  | cons l ls ih =>
    intro i res h
    simp only [processAux] at h
    split at h
    · rcases ih (i + 1) res h with ⟨hb, hp⟩
      refine ⟨fun ip hip => ?_, hp⟩
      rcases hb ip hip with ⟨h1, h2⟩
      constructor
      · omega
      · simp only [List.length_cons]
        omega
    · exact absurd h (by simp)
    next com hcom =>
      cases hrec : processAux parser (i + 1) ls with
      | error e =>
        rw [hrec] at h
        simp [Except.map] at h
      | ok rest' =>
        rw [hrec] at h
        simp only [Except.map, Except.ok.injEq] at h
        rcases ih (i + 1) rest' hrec with ⟨hb, hp⟩
        rw [← h]
        constructor
        · intro ip hip
          rcases List.mem_cons.mp hip with hip | hip
          · rw [hip]
            simp only [List.length_cons]
            omega
          · rcases hb ip hip with ⟨h1, h2⟩
            constructor
            · omega
            · simp only [List.length_cons]
              omega
        · rw [List.map_cons, List.pairwise_cons]
          refine ⟨?_, hp⟩
          intro x hx
          rcases List.mem_map.mp hx with ⟨ip, hip, hx'⟩
          rcases hb ip hip with ⟨h1, _⟩
          omega

/-- The loop of the builder preserves the full invariant and extends the
pending insertion-point list consistently. -/
theorem buildLoop_WF (fetcher : Fetcher)
    (recurse : FileName → DepTree → Option (Except String DepTree))
    (hrec_mono : ∀ fn t t', recurse fn t = some (Except.ok t') →
      ∀ k ∈ keysT t, k ∈ keysT t')
    (hrec_ok : ∀ fn t t', recurse fn t = some (Except.ok t') → treeOK t → treeOK t')
    (hrec_self : ∀ fn t t', recurse fn t = some (Except.ok t') →
      ∀ r, fetcher.resolve_name fn = some r → r ∈ keysT t')
    (N : Nat) :
    ∀ (rest : List (Nat × PreprocCommand)) (name : Str) (pts : List InsertionPoint)
      (tree tree2 : DepTree) (pts2 : List InsertionPoint),
      buildLoop fetcher recurse rest name pts tree = some (Except.ok (tree2, pts2)) →
      treeOK tree →
      (∀ p ∈ pts, p.fname ∈ keysT tree) →
      List.Pairwise (fun a b => a < b) (pts.map InsertionPoint.index) →
      (∀ p ∈ pts, p.index < N) →
      (pts.map InsertionPoint.fname).Nodup →
      List.Pairwise (fun a b => a < b) (rest.map Prod.fst) →
      (∀ ip ∈ rest, ip.1 < N) →
      (∀ p ∈ pts, ∀ ip ∈ rest, p.index < ip.1) →
      treeOK tree2 ∧
      (∀ p ∈ pts2, p.fname ∈ keysT tree2) ∧
      List.Pairwise (fun a b => a < b) (pts2.map InsertionPoint.index) ∧
      (∀ p ∈ pts2, p.index < N) ∧
      (pts2.map InsertionPoint.fname).Nodup := by
  intro rest
  induction rest with
  | nil =>
    intro name pts tree tree2 pts2 hb hok hmem hpair hlt hnd _ _ _
    rcases buildLoop_nil_inv fetcher recurse name pts tree tree2 pts2 hb with ⟨h1, h2⟩
    rw [h1, h2]
    exact ⟨hok, hmem, hpair, hlt, hnd⟩
  | cons ip rest ih =>
    intro name pts tree tree2 pts2 hb hok hmem hpair hlt hnd hrpair hrlt hcross
    obtain ⟨i, com⟩ := ip
    have hrpair0 : List.Pairwise (fun a b => a < b) (i :: rest.map Prod.fst) := by
      simpa using hrpair
    have hrpair' := List.pairwise_cons.mp hrpair0
    rcases buildLoop_cons_inv fetcher recurse i com rest name pts tree tree2 pts2 hb with
      ⟨rname, hres, hcase⟩
    rcases hcase with ⟨_, hb'⟩ | ⟨hall, hkey, hb'⟩ | ⟨hall, hnkey, tmid, hr, hb'⟩
    · exact ih name pts tree tree2 pts2 hb' hok hmem hpair hlt hnd hrpair'.2
        (fun q hq => hrlt q (List.mem_cons_of_mem _ hq))
        (fun p hp q hq => hcross p hp q (List.mem_cons_of_mem _ hq))
    · apply ih name (pts ++ [⟨i, rname⟩]) tree tree2 pts2 hb' hok
      · intro p hp
        rcases List.mem_append.mp hp with hp | hp
        · exact hmem p hp
        · simp at hp
          rw [hp]
          exact hkey
      · rw [List.map_append, List.pairwise_append]
        refine ⟨hpair, by simp, ?_⟩
        intro a ha b hbm
        simp at hbm
        rcases List.mem_map.mp ha with ⟨p, hp, ha'⟩
        rw [← ha', hbm]
        exact hcross p hp (i, com) (List.mem_cons_self _ _)
      · intro p hp
        rcases List.mem_append.mp hp with hp | hp
        · exact hlt p hp
        · simp at hp
          rw [hp]
          exact hrlt (i, com) (List.mem_cons_self _ _)
      · rw [List.map_append, List.nodup_append]
        refine ⟨hnd, by simp, ?_⟩
        intro a ha hbm
        simp at hbm
        rcases List.mem_map.mp ha with ⟨p, hp, ha'⟩
        exact hall p hp (ha'.trans hbm)
      · exact hrpair'.2
      · exact fun q hq => hrlt q (List.mem_cons_of_mem _ hq)
      · intro p hp q hq
        rcases List.mem_append.mp hp with hp | hp
        · exact hcross p hp q (List.mem_cons_of_mem _ hq)
        · simp at hp
          rw [hp]
          exact hrpair'.1 q.1 (List.mem_map.mpr ⟨q, hq, rfl⟩)
    · have hokmid : treeOK tmid := hrec_ok _ _ _ hr hok
      have hsubmid : ∀ k ∈ keysT tree, k ∈ keysT tmid := hrec_mono _ _ _ hr
      have hrmid : rname ∈ keysT tmid := hrec_self _ _ _ hr rname hres
      apply ih name (pts ++ [⟨i, rname⟩]) tmid tree2 pts2 hb' hokmid
      · intro p hp
        rcases List.mem_append.mp hp with hp | hp
        · exact hsubmid _ (hmem p hp)
        · simp at hp
          rw [hp]
          exact hrmid
      · rw [List.map_append, List.pairwise_append]
        refine ⟨hpair, by simp, ?_⟩
        intro a ha b hbm
        simp at hbm
        rcases List.mem_map.mp ha with ⟨p, hp, ha'⟩
        rw [← ha', hbm]
        exact hcross p hp (i, com) (List.mem_cons_self _ _)
      · intro p hp
        rcases List.mem_append.mp hp with hp | hp
        · exact hlt p hp
        · simp at hp
          rw [hp]
          exact hrlt (i, com) (List.mem_cons_self _ _)
      · rw [List.map_append, List.nodup_append]
        refine ⟨hnd, by simp, ?_⟩
        intro a ha hbm
        simp at hbm
        rcases List.mem_map.mp ha with ⟨p, hp, ha'⟩
        exact hall p hp (ha'.trans hbm)
      · exact hrpair'.2
      · exact fun q hq => hrlt q (List.mem_cons_of_mem _ hq)
      · intro p hp q hq
        rcases List.mem_append.mp hp with hp | hp
        · exact hcross p hp q (List.mem_cons_of_mem _ hq)
        · simp at hp
          rw [hp]
          exact hrpair'.1 q.1 (List.mem_map.mpr ⟨q, hq, rfl⟩)

/-- A successful build call puts the resolved name of its own file among
the keys of the resulting tree. -/
theorem buildDeptree_ok_self (fetcher : Fetcher) (parser : LineParser)
    (coh : fetcher.Coherent) :
    ∀ (fuel : Nat) (fname : FileName) (tree tree' : DepTree),
      buildDeptree fetcher parser fuel fname tree = some (Except.ok tree') →
      ∀ r, fetcher.resolve_name fname = some r → r ∈ keysT tree' := by
  intro fuel
  cases fuel with
  | zero => intro fname tree tree' hb; exact absurd hb (by simp [buildDeptree])
  | succ fuel =>
    intro fname tree tree' hb r hr
    rcases buildDeptree_ok_inv fetcher parser fuel fname tree tree' hb with
      ⟨ff, ipoints, tree2, pts, heq, _, _, hout⟩
    have hrn : r = ff.name := by
      have hc := coh fname ff heq
      rw [hr] at hc
      simpa using hc
    rw [hout, hrn]
    exact mem_keysT_insertT_self _ _ _

/-- The builder preserves the full graph invariant. -/
theorem buildDeptree_treeOK (fetcher : Fetcher) (parser : LineParser)
    (coh : fetcher.Coherent) :
    ∀ (fuel : Nat) (fname : FileName) (tree tree' : DepTree),
      buildDeptree fetcher parser fuel fname tree = some (Except.ok tree') →
      treeOK tree → treeOK tree' := by
  intro fuel
  induction fuel with
  | zero => intro fname tree tree' hb; exact absurd hb (by simp [buildDeptree])
  | succ fuel ih =>
    intro fname tree tree' hb hok
    rcases buildDeptree_ok_inv fetcher parser fuel fname tree tree' hb with
      ⟨ff, ipoints, tree2, pts, heq, hps, hbl, hout⟩
    have hok1 : treeOK (insertT tree ff.name ⟨[], []⟩) := by
      apply treeOK_insertT tree ff.name ⟨[], []⟩ hok
      · exact ⟨by simp, by simp, by simp⟩
      · simp
    have hipb := processAux_ok_bounds parser (linesList ff.content) 0 ipoints hps
    have hloop := buildLoop_WF fetcher _
      (fun fn t t' h => buildDeptree_keys_mono fetcher parser fuel fn t t' h)
      (fun fn t t' h hok' => ih fn t t' h hok')
      (fun fn t t' h => buildDeptree_ok_self fetcher parser coh fuel fn t t' h)
      (linesList ff.content).length
      ipoints ff.name [] (insertT tree ff.name ⟨[], []⟩) tree2 pts hbl hok1
      (by simp) (by simp) (by simp) (by simp)
      hipb.2
      (fun ip hip => by
        have := (hipb.1 ip hip).2
        simpa using this)
      (by simp)
    rcases hloop with ⟨hok2, hpmem, hppair, hplt, hpnd⟩
    rw [hout]
    apply treeOK_insertT tree2 ff.name ⟨ff.content, pts⟩ hok2
    · refine ⟨?_, hppair, hplt⟩
      intro p hp
      exact mem_keysT_insertT_of_mem tree2 ff.name _ _ (hpmem p hp)
    · exact hpnd

/-! ## Termination of the builder: fuel adequacy -/

theorem buildLoop_ne_none (fetcher : Fetcher)
    (recurse : FileName → DepTree → Option (Except String DepTree))
    (ids : List Str) (coh : fetcher.Coherent)
    (bound : Nat)
    (hrec_nn : ∀ fn t, (∀ ff, fetcher.fetch fn = some ff → ff.name ∉ keysT t) →
      missing ids (keysT t) < bound → recurse fn t ≠ none)
    (hrec_mono : ∀ fn t t', recurse fn t = some (Except.ok t') →
      ∀ k ∈ keysT t, k ∈ keysT t') :
    ∀ (rest : List (Nat × PreprocCommand)) (name : Str) (pts : List InsertionPoint)
      (tree : DepTree), missing ids (keysT tree) < bound →
      buildLoop fetcher recurse rest name pts tree ≠ none := by
  intro rest
  induction rest with
  | nil => intro name pts tree _; simp [buildLoop]
  | cons ip rest ih =>
    intro name pts tree hm
    obtain ⟨i, com⟩ := ip
    simp only [buildLoop]
    split
    · simp
    next rname heq =>
      split
      · split
        · exact ih name _ tree hm
        next hck =>
          have hnk : rname ∉ keysT tree := fun hmem =>
            hck ((containsKey_iff_mem tree rname).mpr hmem)
          have hE : ∀ ff, fetcher.fetch (toFileName name com) = some ff →
              ff.name ∉ keysT tree := by
            intro ff hff hmem
            have hres := coh _ _ hff
            rw [heq] at hres
            have : rname = ff.name := by
              simpa using hres
            exact hnk (this ▸ hmem)
          have hnn := hrec_nn (toFileName name com) tree hE hm
          cases hr : recurse (toFileName name com) tree with
          | none => exact absurd hr hnn
          | some r =>
            cases r with
            | error e => simp
            | ok tmid =>
              apply ih
              have hsub := hrec_mono _ _ _ hr
              exact Nat.lt_of_le_of_lt (missing_anti ids (keysT tree) (keysT tmid) hsub) hm
      · exact ih name pts tree hm

theorem buildDeptree_ne_none_aux (fetcher : Fetcher) (parser : LineParser)
    (ids : List Str) (coh : fetcher.Coherent)
    (fin : ∀ n r, fetcher.resolve_name n = some r → r ∈ ids) :
    ∀ (fuel : Nat) (fname : FileName) (tree : DepTree),
      (∀ ff, fetcher.fetch fname = some ff → ff.name ∉ keysT tree) →
      missing ids (keysT tree) < fuel →
      buildDeptree fetcher parser fuel fname tree ≠ none := by
  intro fuel
  induction fuel with
  | zero => intro fname tree _ hm; exact absurd hm (by simp)
  | succ fuel ih =>
    intro fname tree hE hm
    simp only [buildDeptree]
    split
    · simp
    next ff heq =>
      have hname_ids : ff.name ∈ ids := fin fname ff.name (coh fname ff heq)
      have hname_not : ff.name ∉ keysT tree := hE ff heq
      have hm1 : missing ids (keysT (insertT tree ff.name ⟨[], []⟩)) < fuel := by
        have hlt := missing_lt ids (keysT tree) (keysT (insertT tree ff.name ⟨[], []⟩))
          ff.name hname_ids hname_not (mem_keysT_insertT_self tree ff.name ⟨[], []⟩)
          (mem_keysT_insertT_of_mem tree ff.name ⟨[], []⟩)
        exact Nat.lt_of_lt_of_le hlt (Nat.lt_succ_iff.mp hm)
      split
      · simp
      next ipoints hps =>
        have hbl := buildLoop_ne_none fetcher
          (fun fn t => buildDeptree fetcher parser fuel fn t) ids coh fuel
          (fun fn t hE' hm' => ih fn t hE' hm')
          (fun fn t t' h => buildDeptree_keys_mono fetcher parser fuel fn t t' h)
          ipoints ff.name [] (insertT tree ff.name ⟨[], []⟩) hm1
        split
        next hnone => exact absurd hnone hbl
        · simp
        · simp

/-- C2: the graph builder terminates on every input, cyclic references
included: whenever the fetcher is coherent and resolves only into a
finite list of identities `ids`, any fuel larger than `ids.length`
suffices, so the recursion never runs out (the placeholder inserted for a
file before its directives are scanned makes every recursive call enter
an identity not yet in the graph). -/
theorem buildDeptree_terminates (fetcher : Fetcher) (parser : LineParser)
    (ids : List Str) (coh : fetcher.Coherent)
    (fin : ∀ n r, fetcher.resolve_name n = some r → r ∈ ids)
    (fuel : Nat) (fname : FileName) (hfuel : ids.length < fuel) :
    buildDeptree fetcher parser fuel fname [] ≠ none := by
  apply buildDeptree_ne_none_aux fetcher parser ids coh fin fuel fname []
  · intro ff _ hmem
    simp [keysT] at hmem
  · exact Nat.lt_of_le_of_lt (missing_le_length ids (keysT [])) hfuel

/-! ## Totality of the assembler on well-formed graphs -/

theorem consumeTo_range (idx : Nat) :
    ∀ (lines : List (Nat × Str)) (s n : Nat) (pushed : List Str),
      lines.map Prod.fst = List.range' s n →
      s ≤ idx → idx < s + n →
      ∃ pushed2 rem, consumeTo idx lines pushed = some (pushed ++ pushed2, rem) ∧
        rem.map Prod.fst = List.range' (idx + 1) (s + n - (idx + 1)) := by
  intro lines
  induction lines with
  | nil =>
    intro s n pushed hmap hle hlt
    have hn : n = 0 := by
      cases n with
      | zero => rfl
      | succ n' => simp [List.range'] at hmap
    omega
  | cons hd tl ih =>
    intro s n pushed hmap hle hlt
    obtain ⟨i, l⟩ := hd
    cases n with
    | zero => simp [List.range'] at hmap
    | succ n' =>
      obtain ⟨his, htl⟩ : i = s ∧ tl.map Prod.fst = List.range' (s + 1) n' := by
        simpa [List.range'] using hmap
      by_cases hidx : i = idx
      · refine ⟨[], tl, ?_, ?_⟩
        · simp [consumeTo, hidx]
        · rw [htl]
          have hse : idx = s := by omega
          congr 1 <;> omega
      · have hle' : s + 1 ≤ idx := by omega
        rcases ih (s + 1) n' (pushed ++ [l]) htl hle' (by omega) with
          ⟨p2, rem, hc, hrem⟩
        refine ⟨l :: p2, rem, ?_, ?_⟩
        · simp only [consumeTo, hidx, if_false]
          rw [hc]
          simp
        · rw [hrem]
          congr 1
          omega

theorem subPoints_adequate (deps : DepTree)
    (recurse : Str → List Str → List Str → Option (List Str × List Str))
    (bound : Nat)
    (hrec : ∀ f acc v, f ∈ keysT deps → f ∉ v → missing (keysT deps) v < bound →
      ∃ acc2 v2, recurse f acc v = some (acc2, v2) ∧
        (∀ x ∈ v, x ∈ v2) ∧ (∀ x ∈ v2, x ∈ v ∨ x = f ∨ x ∈ mentionedT deps)) :
    ∀ (pts : List InsertionPoint) (lines : List (Nat × Str)) (acc v : List Str)
      (s N : Nat),
      lines.map Prod.fst = List.range' s (N - s) →
      List.Pairwise (fun a b => a < b) (pts.map InsertionPoint.index) →
      (∀ p ∈ pts, s ≤ p.index ∧ p.index < N) →
      (∀ p ∈ pts, p.fname ∈ keysT deps) →
      (∀ p ∈ pts, p.fname ∈ mentionedT deps) →
      missing (keysT deps) v < bound →
      ∃ acc2 v2, subPoints recurse pts lines acc v = some (acc2, v2) ∧
        (∀ x ∈ v, x ∈ v2) ∧ (∀ x ∈ v2, x ∈ v ∨ x ∈ mentionedT deps) := by
  intro pts
  induction pts with
  | nil =>
    intro lines acc v s N _ _ _ _ _ _
    exact ⟨acc ++ lines.map Prod.snd, v, rfl, fun x hx => hx, fun x hx => Or.inl hx⟩
  | cons p ps ih =>
    intro lines acc v s N hmap hpair hbnd hkeys hment hm
    have hp := hbnd p (List.mem_cons_self _ _)
    have hsN : s + (N - s) = N := by omega
    rcases consumeTo_range p.index lines s (N - s) [] hmap hp.1 (by omega) with
      ⟨pushed2, rem, hc, hrem⟩
    have hpair0 : List.Pairwise (fun a b => a < b)
        (p.index :: ps.map InsertionPoint.index) := by
      simpa using hpair
    have hpair' := List.pairwise_cons.mp hpair0
    have hrem' : rem.map Prod.fst =
        List.range' (p.index + 1) (N - (p.index + 1)) := by
      rw [hrem]
      congr 1
      omega
    have hbnd' : ∀ q ∈ ps, p.index + 1 ≤ q.index ∧ q.index < N := by
      intro q hq
      have h1 := hpair'.1 q.index (List.mem_map.mpr ⟨q, hq, rfl⟩)
      have h2 := hbnd q (List.mem_cons_of_mem _ hq)
      omega
    have hkeys' := fun q hq => hkeys q (List.mem_cons_of_mem _ hq)
    have hment' := fun q hq => hment q (List.mem_cons_of_mem _ hq)
    simp only [subPoints]
    rw [hc]
    simp only [List.nil_append]
    by_cases hv : p.fname ∈ v
    · rw [if_pos hv]
      exact ih rem (acc ++ pushed2) v (p.index + 1) N hrem' hpair'.2 hbnd'
        hkeys' hment' hm
    · rw [if_neg hv]
      rcases hrec p.fname (acc ++ pushed2) v (hkeys p (List.mem_cons_self _ _)) hv hm with
        ⟨accr, vr, hr, hsubr, hupr⟩
      rw [hr]
      have hmr : missing (keysT deps) vr < bound :=
        Nat.lt_of_le_of_lt (missing_anti (keysT deps) v vr hsubr) hm
      rcases ih rem accr vr (p.index + 1) N hrem' hpair'.2 hbnd' hkeys' hment' hmr with
        ⟨acc2, v2, hsp, hsub2, hup2⟩
      refine ⟨acc2, v2, hsp, ?_, ?_⟩
      · exact fun x hx => hsub2 x (hsubr x hx)
      · intro x hx
        rcases hup2 x hx with hx' | hx'
        · rcases hupr x hx' with h | h | h
          · exact Or.inl h
          · exact Or.inr (h ▸ hment p (List.mem_cons_self _ _))
          · exact Or.inr h
        · exact Or.inr hx'

theorem subbuildFile_adequate (deps : DepTree) (hwf : treeWF deps) :
    ∀ (fuel : Nat) (f : Str) (acc v : List Str),
      f ∈ keysT deps → f ∉ v → missing (keysT deps) v < fuel →
      ∃ acc2 v2, subbuildFile deps fuel f acc v = some (acc2, v2) ∧
        (∀ x ∈ v, x ∈ v2) ∧ (∀ x ∈ v2, x ∈ v ∨ x = f ∨ x ∈ mentionedT deps) := by
  intro fuel
  induction fuel with
  | zero => intro f acc v _ _ hm; exact absurd hm (Nat.not_lt_zero _)
  | succ fuel ih =>
    intro f acc v hf hfv hm
    rcases mem_keysT_lookup deps f hf with ⟨fd, hfd⟩
    have hentry : (f, fd) ∈ deps := lookupT_eq_some_mem deps f fd hfd
    have hrwf := hwf.2 (f, fd) hentry
    simp only [subbuildFile]
    rw [hfd]
    have henum : ((linesList fd.source).enum.map Prod.fst) =
        List.range' 0 ((linesList fd.source).length - 0) := by
      rw [List.enum_map_fst, List.range_eq_range']
      congr 1
    have hm1 : missing (keysT deps) (f :: v) < fuel := by
      have hlt := missing_lt (keysT deps) v (f :: v) f hf hfv
        (List.mem_cons_self _ _) (fun x hx => List.mem_cons_of_mem _ hx)
      omega
    rcases subPoints_adequate deps (fun f a v => subbuildFile deps fuel f a v) fuel
      (fun f' a' v' h1 h2 h3 => ih f' a' v' h1 h2 h3)
      fd.points ((linesList fd.source).enum) acc (f :: v)
      0 (linesList fd.source).length henum
      hrwf.2.1 (fun p hp => ⟨Nat.zero_le _, hrwf.2.2 p hp⟩)
      hrwf.1 (fun p hp => mem_mentionedT deps (f, fd) p hentry hp)
      hm1 with ⟨acc2, v2, hsp, hsub, hup⟩
    refine ⟨acc2, v2, hsp, ?_, ?_⟩
    · exact fun x hx => hsub x (List.mem_cons_of_mem _ hx)
    · intro x hx
      rcases hup x hx with hx' | hx'
      · rcases List.mem_cons.mp hx' with h | h
        · exact Or.inr (Or.inl h)
        · exact Or.inl h
      · exact Or.inr (Or.inr hx')

theorem rootsFold_adequate (deps : DepTree) (hwf : treeWF deps) :
    ∀ (roots : List Str) (acc v : List Str),
      (∀ r ∈ roots, r ∈ keysT deps) → roots.Nodup →
      (∀ r ∈ roots, r ∉ v) →
      (∀ r ∈ roots, r ∉ mentionedT deps) →
      ∃ acc2 v2, rootsFold deps roots acc v = some (acc2, v2) ∧
        (∀ x ∈ v2, x ∈ v ∨ x ∈ roots ∨ x ∈ mentionedT deps) := by
  intro roots
  induction roots with
  | nil =>
    intro acc v _ _ _ _
    exact ⟨acc, v, rfl, fun x hx => Or.inl hx⟩
  | cons r rs ih =>
    intro acc v hkeys hnd hv hment
    have hmv : missing (keysT deps) v < deps.length + 1 := by
      have h1 := missing_le_length (keysT deps) v
      have h2 : (keysT deps).length = deps.length := List.length_map _ _
      omega
    rcases subbuildFile_adequate deps hwf (deps.length + 1) r acc v
      (hkeys r (List.mem_cons_self _ _)) (hv r (List.mem_cons_self _ _)) hmv with
      ⟨acc2, v2, hsb, hsub, hup⟩
    have hnd' := List.nodup_cons.mp hnd
    have hv2 : ∀ r' ∈ rs, r' ∉ v2 := by
      intro r' hr' hin
      rcases hup r' hin with h | h | h
      · exact hv r' (List.mem_cons_of_mem _ hr') h
      · exact hnd'.1 (h ▸ hr')
      · exact hment r' (List.mem_cons_of_mem _ hr') h
    rcases ih acc2 v2 (fun x hx => hkeys x (List.mem_cons_of_mem _ hx)) hnd'.2
      hv2 (fun x hx => hment x (List.mem_cons_of_mem _ hx)) with
      ⟨acc3, v3, hrf, hup3⟩
    refine ⟨acc3, v3, ?_, ?_⟩
    · simp only [rootsFold]
      rw [hsb]
      exact hrf
    · intro x hx
      rcases hup3 x hx with hx' | hx' | hx'
      · rcases hup x hx' with h | h | h
        · exact Or.inl h
        · exact Or.inr (Or.inl (h ▸ List.mem_cons_self _ _))
        · exact Or.inr (Or.inr h)
      · exact Or.inr (Or.inl (List.mem_cons_of_mem _ hx'))
      · exact Or.inr (Or.inr hx')

/-- In the pure-cycle fallback (every key referenced), `build_file` is
`buildFileRooted` at some key of the graph: the model's `buildFile`
resolves Rust's arbitrary `keys().take(1)` pick, and `buildFileRooted`
ranges over all the picks the randomized `HashMap` could make. -/
theorem buildFile_fallback_rooted (deps : DepTree) (hne : deps ≠ [])
    (hfe : ((keysT deps).filter (fun k => decide (k ∉ mentionedT deps))).isEmpty = true) :
    ∃ r, r ∈ keysT deps ∧ buildFile deps = buildFileRooted deps r := by
  obtain ⟨e, es, hd⟩ : ∃ e es, deps = e :: es := by
    cases deps with
    | nil => exact absurd rfl hne
    | cons e es => exact ⟨e, es, rfl⟩
  refine ⟨e.1, ?_, ?_⟩
  · rw [hd]
    simp [keysT]
  · have hr1 : rootsOf deps = [e.1] := by
      unfold rootsOf
      rw [if_pos hfe, hd]
      simp [keysT]
    unfold buildFile buildFileRooted
    rw [hr1]

/-- C6: assembly fails exactly on the empty graph. `build_file` returns
the empty-graph error on an empty tree, and on every non-empty graph
satisfying the builder's well-formedness invariants it returns `Ok`
without reaching any panic: the `unwrap`s on graph lookup and line
iteration are unreachable under that precondition. -/
theorem buildFile_total (deps : DepTree) :
    (deps = [] → buildFile deps = some (Except.error "empty dependency tree")) ∧
    (deps ≠ [] → treeWF deps → ∃ s, buildFile deps = some (Except.ok s)) := by
  constructor
  · intro h
    subst h
    rfl
  · intro hne hwf
    have hie : deps.isEmpty = false := by
      cases hie : deps.isEmpty with
      | true => exact absurd (List.isEmpty_iff.mp hie) hne
      | false => rfl
    have hroots : ∃ acc2 v2, rootsFold deps (rootsOf deps) [] [] = some (acc2, v2) := by
      by_cases hfe : ((keysT deps).filter (fun k => decide (k ∉ mentionedT deps))).isEmpty
      · obtain ⟨e, es, hd⟩ : ∃ e es, deps = e :: es := by
          cases deps with
          | nil => exact absurd rfl hne
          | cons e es => exact ⟨e, es, rfl⟩
        have hr1 : rootsOf deps = [e.1] := by
          unfold rootsOf
          rw [if_pos hfe, hd]
          simp [keysT]
        have hmv : missing (keysT deps) [] < deps.length + 1 := by
          have h1 := missing_le_length (keysT deps) []
          have h2 : (keysT deps).length = deps.length := List.length_map _ _
          omega
        have hek : e.1 ∈ keysT deps := by
          rw [hd]
          simp [keysT]
        rcases subbuildFile_adequate deps hwf (deps.length + 1) e.1 [] []
          hek (by simp) hmv with ⟨acc2, v2, hsb, _, _⟩
        refine ⟨acc2, v2, ?_⟩
        rw [hr1]
        simp only [rootsFold]
        rw [hsb]
      · have hr2 : rootsOf deps =
            (keysT deps).filter (fun k => decide (k ∉ mentionedT deps)) := by
          unfold rootsOf
          rw [if_neg hfe]
        rcases rootsFold_adequate deps hwf
          ((keysT deps).filter (fun k => decide (k ∉ mentionedT deps))) [] []
          (fun r hr => (List.mem_filter.mp hr).1)
          (hwf.1.filter _)
          (fun r _ => by simp)
          (fun r hr => by
            have := (List.mem_filter.mp hr).2
            simpa using this) with ⟨acc2, v2, hrf, _⟩
        exact ⟨acc2, v2, by rw [hr2]; exact hrf⟩
    rcases hroots with ⟨acc2, v2, hrf⟩
    refine ⟨joinNL acc2, ?_⟩
    simp only [buildFile, hie, Bool.false_eq_true, if_false]
    rw [hrf]

/-! ## Round-trip of line splitting and joining -/

theorem linesAux_ne_nil (cs : List Char) (acc : List Char)
    (h : acc ≠ [] ∨ cs ≠ []) : linesAux cs acc ≠ [] := by
  induction cs generalizing acc with
  | nil =>
    have hacc : acc ≠ [] := by
      rcases h with h | h
      · exact h
      · exact absurd rfl h
    have : ¬ acc.isEmpty := by simpa [List.isEmpty_iff] using hacc
    simp [linesAux, this]
  | cons c rest ih =>
    by_cases hc : c = '\n'
    · simp [linesAux, hc]
    · have hstep : linesAux (c :: rest) acc = linesAux rest (c :: acc) := by
        simp [linesAux, hc]
      rw [hstep]
      exact ih (c :: acc) (Or.inl (by simp))

theorem joinNL_cons_of_ne_nil (x : Str) (L : List Str) (h : L ≠ []) :
    joinNL (x :: L) = x ++ '\n' :: joinNL L := by
  cases L with
  | nil => exact absurd rfl h
  | cons y ys => rfl

theorem joinNL_linesAux (cs : List Char) :
    ∀ acc : List Char, '\r' ∉ acc → '\r' ∉ cs →
    (acc.reverse ++ cs).getLast? ≠ some '\n' →
    joinNL (linesAux cs acc) = acc.reverse ++ cs := by
  induction cs with
  | nil =>
    intro acc hacc _ _
    by_cases h : acc.isEmpty
    · have : acc = [] := List.isEmpty_iff.mp h
      subst this
      simp [linesAux, joinNL]
    · simp [linesAux, h, joinNL]
  | cons c rest ih =>
    intro acc hacc hcs hlast
    by_cases hc : c = '\n'
    · subst hc
      have hstrip : stripCR acc.reverse = acc.reverse := by
        unfold stripCR
        by_cases hl : acc.reverse.getLast? = some '\r'
        · exfalso
          rw [List.getLast?_reverse] at hl
          exact hacc (List.mem_of_mem_head? (by rw [hl]; simp))
        · rw [if_neg hl]
      by_cases hrne0 : rest = []
      · exfalso
        apply hlast
        subst hrne0
        exact List.getLast?_concat _
      · have hrne : rest ≠ [] := hrne0
        have hne : linesAux rest [] ≠ [] := linesAux_ne_nil rest [] (Or.inr hrne)
        have hstep : linesAux ('\n' :: rest) acc = stripCR acc.reverse :: linesAux rest [] := by
          simp [linesAux]
        rw [hstep, joinNL_cons_of_ne_nil _ _ hne, hstrip]
        have hlast' : ([] : List Char).reverse ++ rest ≠ [] := by simpa using hrne
        have hrlast : (([] : List Char).reverse ++ rest).getLast? ≠ some '\n' := by
          have : (acc.reverse ++ '\n' :: rest).getLast? = rest.getLast? := by
            rw [show ('\n' :: rest) = ['\n'] ++ rest from rfl, ← List.append_assoc]
            exact List.getLast?_append_of_ne_nil _ hrne
          simpa using (this ▸ hlast)
        rw [ih [] (by simp) (fun hm => hcs (List.mem_cons_of_mem _ hm)) hrlast]
        simp
    · have hstep : linesAux (c :: rest) acc = linesAux rest (c :: acc) := by
        simp [linesAux, hc]
      rw [hstep]
      have hcr : c ≠ '\r' := by
        intro h; exact hcs (h ▸ List.mem_cons_self _ _)
      have hacc' : '\r' ∉ c :: acc := by
        intro hm
        rcases List.mem_cons.mp hm with hm | hm
        · exact hcr hm.symm
        · exact hacc hm
      have heq : (c :: acc).reverse ++ rest = acc.reverse ++ c :: rest := by
        simp
      have hlast' : ((c :: acc).reverse ++ rest).getLast? ≠ some '\n' := by
        rw [heq]; exact hlast
      rw [ih (c :: acc) hacc' (fun hm => hcs (List.mem_cons_of_mem _ hm)) hlast', heq]

/-- Rust `s.lines().join("\n") = s` whenever `s` contains no carriage
return and does not end with a newline. -/
theorem joinNL_linesList (cs : Str) (hcr : '\r' ∉ cs)
    (hlast : cs.getLast? ≠ some '\n') : joinNL (linesList cs) = cs := by
  have := joinNL_linesAux cs [] (by simp) hcr (by simpa using hlast)
  simpa [linesList] using this

/-! ## Concrete scenario data -/

/-- The dependency tree the builder produces for `abcTable`, seeded at
`a.txt`. -/
def abcTree : DepTree :=
  [("a.txt".data, ⟨"File a.txt begin\n//&include <b.txt>\nFile a.txt end".data,
      [⟨1, "b.txt".data⟩]⟩),
   ("b.txt".data, ⟨"File b.txt begin\n//&include <c.txt>\nFile b.txt end".data,
      [⟨1, "c.txt".data⟩]⟩),
   ("c.txt".data, ⟨"File c.txt begin\n//&include <a.txt>\nFile c.txt end".data,
      [⟨1, "a.txt".data⟩]⟩)]

/-- A file whose second include directive targets the already-included
`b.txt` again. -/
def dupTable : List (Str × Str) :=
  [("d.txt".data, "start\n//&include <b.txt>\nmid\n//&include <b.txt>\nend".data),
   ("b.txt".data, "B".data)]

/-- The tree built from `dupTable`: only the first directive to `b.txt`
became an insertion point. -/
def dupTree : DepTree :=
  [("d.txt".data, ⟨"start\n//&include <b.txt>\nmid\n//&include <b.txt>\nend".data,
      [⟨1, "b.txt".data⟩]⟩),
   ("b.txt".data, ⟨"B".data, []⟩)]

/-- A single file with no directives whose text ends in a newline. -/
def nlTable : List (Str × Str) := [("f.txt".data, "x\n".data)]

/-- The tree built from `nlTable`. -/
def nlTree : DepTree := [("f.txt".data, ⟨"x\n".data, []⟩)]

/-! ## Claim theorems: concrete scenarios -/

/-- C1 (counterexample): in the cyclic three-file graph every key is
referenced, so `build_file` falls back to one arbitrary key of a
randomized-iteration `HashMap` as its single root. `b.txt` is such a key,
and rooting there emits a rotation of the six lines, not the claimed
text: the exact output claimed for `build_deptree` + `build_file` is not
guaranteed by the program. -/
theorem abc_cycle_arbitrary_root_cex :
    ("b.txt".data ∈ keysT abcTree) ∧
    (∀ k ∈ keysT abcTree, k ∈ mentionedT abcTree) ∧
    buildFileRooted abcTree "b.txt".data =
      some (Except.ok ("File b.txt begin\nFile c.txt begin\nFile a.txt begin\nFile a.txt end\nFile c.txt end\nFile b.txt end".data)) ∧
    ("File b.txt begin\nFile c.txt begin\nFile a.txt begin\nFile a.txt end\nFile c.txt end\nFile b.txt end".data : Str) ≠
      "File a.txt begin\nFile b.txt begin\nFile c.txt begin\nFile c.txt end\nFile b.txt end\nFile a.txt end".data := by
  refine ⟨by decide, by decide, rfl, by decide⟩

/-- C1 (amended): in the cyclic three-file scenario (`a.txt` includes
`b.txt`, `b.txt` includes `c.txt`, `c.txt` includes `a.txt`, all via
global directives), building the dependency graph from `a.txt` yields the
three-record graph with one insertion point per file, and assembling it
rooted at `a.txt` — the case in which `build_file`'s arbitrary fallback
key is `a.txt` — yields exactly the six content lines joined by single
newlines, with every directive line removed and `c.txt`'s back-reference
to `a.txt` contributing nothing. -/
theorem abc_cycle_build_and_assemble_rooted :
    buildDeptree abcFetcher cparser 4 (FileName.Global "a.txt".data) []
      = some (Except.ok abcTree) ∧
    buildFileRooted abcTree "a.txt".data =
      some (Except.ok ("File a.txt begin\nFile b.txt begin\nFile c.txt begin\nFile c.txt end\nFile b.txt end\nFile a.txt end".data)) := by
  exact ⟨rfl, rfl⟩

/-- C8: the malformed directive-looking line `//&wrong <not read>` (with
comment marker `//`) aborts the whole build with a parse error at line
index 0 whose message carries the offending remainder
`wrong <not read>`. -/
theorem malformed_directive_error :
    buildDeptree (memFetcher [("e.txt".data, "//&wrong <not read>".data)]) cparser 2
        (FileName.Global "e.txt".data) []
      = some (Except.error "line 0: invalid preproc statement `wrong <not read>`") := by
  exact rfl

/-- C9: when a file contains two include directives resolving to the same
target, only the first directive's line is removed during assembly; the
second directive line, having no recorded insertion point, is copied
verbatim into the flattened output. -/
theorem duplicate_directive_line_kept :
    buildDeptree (memFetcher dupTable) cparser 3 (FileName.Global "d.txt".data) []
      = some (Except.ok dupTree) ∧
    buildFile dupTree =
      some (Except.ok ("start\nB\nmid\n//&include <b.txt>\nend".data)) := by
  exact ⟨rfl, rfl⟩

/-- C10: `generate_deptree` wraps the seed as a name local to `./`, so a
seed that exists only under an added include directory fails to resolve,
even though the same name as a global (directive-style) reference resolves
through the search path. -/
theorem seed_resolved_local_to_cwd :
    generateDeptree (fsFetcher c10fs ⟨["inc".data]⟩) cparser 3 "x.txt".data
      = some (Except.error "file not found \"x.txt\" (local to ./)") ∧
    (fsFetcher c10fs ⟨["inc".data]⟩).resolve_name (FileName.Global "x.txt".data)
      = some "inc/x.txt".data := by
  exact ⟨rfl, rfl⟩

/-- Processing a source none of whose lines is recognized as a directive
collects no include points. -/
theorem processAux_none (parser : LineParser) (ls : List Str)
    (h : ∀ l ∈ ls, parser l = none) : ∀ i, processAux parser i ls = Except.ok [] := by
  induction ls with
  | nil => intro i; rfl
  | cons l ls ih =>
    intro i
    have hl : parser l = none := h l (List.mem_cons_self _ _)
    have hrest := ih (fun x hx => h x (List.mem_cons_of_mem _ hx)) (i + 1)
    simp [processAux, hl, hrest]

/-- C7 (amended): a single directive-free file whose raw text contains no
carriage return and does not end with a newline round-trips byte for
byte: the build produces a one-entry graph with no insertion points, and
assembly returns exactly the raw text. -/
theorem roundtrip_no_trailing_newline (fetcher : Fetcher) (parser : LineParser)
    (fname : FileName) (ff : FetchedFile)
    (hf : fetcher.fetch fname = some ff)
    (hnd : ∀ l ∈ linesList ff.content, parser l = none)
    (hcr : '\r' ∉ ff.content)
    (hnl : ff.content.getLast? ≠ some '\n') :
    buildDeptree fetcher parser 1 fname [] =
      some (Except.ok [(ff.name, ⟨ff.content, []⟩)]) ∧
    buildFile [(ff.name, ⟨ff.content, []⟩)] = some (Except.ok ff.content) := by
  constructor
  · have hps : processSource parser (linesList ff.content) = Except.ok [] :=
      processAux_none parser _ hnd 0
    show buildDeptree fetcher parser (0 + 1) fname [] = _
    simp only [buildDeptree, hf]
    rw [hps]
    simp [buildLoop, insertT]
  · simp [buildFile, rootsOf, mentionedT, keysT, rootsFold, subbuildFile,
      subPoints, lookupT]
    exact joinNL_linesList _ hcr hnl

/-- Witness for the amended round-trip theorem at a concrete
directive-free two-line file. -/
theorem roundtrip_no_trailing_newline_witness :
    buildFile [("g.txt".data, ⟨"hello\nworld".data, []⟩)] =
      some (Except.ok "hello\nworld".data) :=
  (roundtrip_no_trailing_newline (memFetcher [("g.txt".data, "hello\nworld".data)])
    cparser (FileName.Global "g.txt".data) ⟨"g.txt".data, "hello\nworld".data⟩
    rfl (by decide) (by decide) (by decide)).2

/-- Witness for the termination theorem at the cyclic three-file fetcher:
fuel 4 exceeds the three resolvable identities, so the build cannot run
out of fuel even though the include graph is a cycle. -/
theorem buildDeptree_terminates_witness :
    buildDeptree abcFetcher cparser 4 (FileName.Global "a.txt".data) [] ≠ none :=
  buildDeptree_terminates abcFetcher cparser (abcTable.map Prod.fst)
    (memFetcher_coherent abcTable) (memFetcher_resolve_mem abcTable) 4
    (FileName.Global "a.txt".data) (by decide)

/-- C3: every dependency graph returned by a successful build is
well-formed: every insertion point's target identity is a key of the
graph, the insertion-point line indices of each record strictly increase
in scan order, and each index is strictly below the owning file's total
line count. -/
theorem deptree_wellformed (fetcher : Fetcher) (parser : LineParser)
    (coh : fetcher.Coherent) (fuel : Nat) (fname : FileName) (tree' : DepTree)
    (hb : buildDeptree fetcher parser fuel fname [] = some (Except.ok tree')) :
    ∀ e ∈ tree', (∀ p ∈ e.2.points, p.fname ∈ keysT tree') ∧
      List.Pairwise (fun a b => a < b) (e.2.points.map InsertionPoint.index) ∧
      (∀ p ∈ e.2.points, p.index < (linesList e.2.source).length) := by
  intro e he
  exact (buildDeptree_treeOK fetcher parser coh fuel fname [] tree' hb treeOK_nil).1.2 e he

/-- Witness for the well-formedness theorem at the cyclic three-file
graph. -/
theorem deptree_wellformed_witness :
    ("a.txt".data ∈ keysT abcTree) ∧
    (∀ e ∈ abcTree, (∀ p ∈ e.2.points, p.fname ∈ keysT abcTree) ∧
      List.Pairwise (fun a b => a < b) (e.2.points.map InsertionPoint.index) ∧
      (∀ p ∈ e.2.points, p.index < (linesList e.2.source).length)) :=
  ⟨by decide,
    deptree_wellformed abcFetcher cparser (memFetcher_coherent abcTable) 4
      (FileName.Global "a.txt".data) abcTree rfl⟩

/-- C4: within one record of a successfully built graph, at most one
insertion point references any given target identity — the recorded
target names of each file are pairwise distinct, later same-target
directives having been dropped. -/
theorem deptree_points_dedup (fetcher : Fetcher) (parser : LineParser)
    (coh : fetcher.Coherent) (fuel : Nat) (fname : FileName) (tree' : DepTree)
    (hb : buildDeptree fetcher parser fuel fname [] = some (Except.ok tree')) :
    ∀ e ∈ tree', (e.2.points.map InsertionPoint.fname).Nodup := by
  intro e he
  exact (buildDeptree_treeOK fetcher parser coh fuel fname [] tree' hb treeOK_nil).2 e he

/-- Witness for the deduplication theorem: the file `d.txt` includes
`b.txt` twice, and its final record carries exactly one insertion point
for `b.txt`. -/
theorem deptree_points_dedup_witness :
    (∀ e ∈ dupTree, (e.2.points.map InsertionPoint.fname).Nodup) ∧
    (lookupT dupTree "d.txt".data).map (fun fd => fd.points.length) = some 1 :=
  ⟨deptree_points_dedup (memFetcher dupTable) cparser (memFetcher_coherent dupTable) 3
    (FileName.Global "d.txt".data) dupTree rfl, rfl⟩

/-- Witness for the assembler-totality theorem: the cyclic three-file
graph is nonempty and well-formed, and assembly returns `Ok`. -/
theorem buildFile_total_witness :
    ∃ s, buildFile abcTree = some (Except.ok s) := by
  have h1 : abcTree ≠ [] := by decide
  have h2 : treeWF abcTree := by
    unfold treeWF recordWF
    decide
  exact (buildFile_total abcTree).2 h1 h2

/-- C5: root selection in the assembler. When some key is not referenced
as an insertion target, the roots are exactly the unreferenced keys; when
every key is referenced (a pure cycle), exactly one arbitrary key of the
graph is used as the single root. -/
theorem roots_characterization (deps : DepTree) (h : deps ≠ []) :
    (¬ (∀ k ∈ keysT deps, k ∈ mentionedT deps) →
      ∀ k, k ∈ rootsOf deps ↔ k ∈ keysT deps ∧ k ∉ mentionedT deps) ∧
    ((∀ k ∈ keysT deps, k ∈ mentionedT deps) →
      ∃ r, r ∈ keysT deps ∧ rootsOf deps = [r]) := by
  constructor
  · intro hnot k
    have hne : (keysT deps).filter (fun j => decide (j ∉ mentionedT deps)) ≠ [] := by
      intro hfe
      apply hnot
      intro j hj
      by_contra hjm
      have hmem : j ∈ (keysT deps).filter (fun j => decide (j ∉ mentionedT deps)) :=
        List.mem_filter.mpr ⟨hj, by simp [hjm]⟩
      rw [hfe] at hmem
      simp at hmem
    have hb : ¬ ((keysT deps).filter (fun j => decide (j ∉ mentionedT deps))).isEmpty = true := by
      rw [List.isEmpty_iff]
      exact hne
    unfold rootsOf
    rw [if_neg hb, List.mem_filter]
    simp
  · intro hall
    have hfe : (keysT deps).filter (fun j => decide (j ∉ mentionedT deps)) = [] := by
      rw [List.filter_eq_nil_iff]
      intro a ha
      simp [hall a ha]
    obtain ⟨e, es, hd⟩ : ∃ e es, deps = e :: es := by
      cases deps with
      | nil => exact absurd rfl h
      | cons e es => exact ⟨e, es, rfl⟩
    refine ⟨e.1, ?_, ?_⟩
    · rw [hd]; simp [keysT]
    · unfold rootsOf
      rw [hfe]
      simp [hd, keysT]

/-- Witness for the root-selection theorem: the cyclic three-file graph
has every key referenced, and assembly uses a single root. -/
theorem roots_characterization_witness :
    ∃ r, r ∈ keysT abcTree ∧ rootsOf abcTree = [r] :=
  (roots_characterization abcTree (by decide)).2 (by decide)

/-- C7 (counterexample): a single directive-free file whose text ends in a
newline does not round-trip byte for byte: the build succeeds, but
assembly returns the text without the trailing newline. -/
theorem roundtrip_trailing_newline_cex :
    buildDeptree (memFetcher nlTable) cparser 2 (FileName.Global "f.txt".data) []
      = some (Except.ok nlTree) ∧
    buildFile nlTree = some (Except.ok "x".data) ∧
    "x".data ≠ "x\n".data := by
  refine ⟨rfl, rfl, ?_⟩
  decide

end Preproc
